import Mathlib

/-!
Verification development for the falling-sand prototype in
`src/bigcity/bevy/proto/src/main.rs`.

The byte-buffer operations (`setupImageData`, `paintData`, `pixelIdx`),
the ping-pong resource (`PingPong`, `pingPongSystem`), the paint system
(`paintSystem`) and the particle enumeration (`Particle`, `colorByte`,
`defaultSelectedParticle`) are shallow embeddings of the Rust source.

The cellular-automaton update rules are not present in `src/` (only the
shader file `shaders/falling_sand.wgsl`, which is not supplied, would
hold them); `moveTarget`, `applyRule` and `step` below are modelled from
the spec, as documented on each definition.
-/

/-- Particle enumeration, from `main.rs` lines 19-26.  The `#[default]`
attribute in the source sits on `Air`. -/
inductive Particle where
  | Air
  | Bedrock
  | Sand
  | Water
deriving DecidableEq, Repr

/-- The byte written into the red channel for each particle:
`(Particle::get_color_id() * 255.0) as u8` from `main.rs` lines 29-36 and
117/308, with the `f32` arithmetic evaluated: `0.0*255 = 0`,
`0.1f32*255 = 25.50000038 -> rounds to 25.5f32 -> truncates to 25`,
`0.5*255 = 127.5 -> 127`, `1.0*255 = 255`. -/
def colorByte : Particle → Nat
  | Particle.Air => 0
  | Particle.Bedrock => 25
  | Particle.Sand => 127
  | Particle.Water => 255

/-- The startup value of the `SelectedParticle` resource (`main.rs` lines
82-83): `#[derive(Resource, Default)] struct SelectedParticle(Particle)`
takes the `#[default]` variant of `Particle`, which is `Air`. -/
def defaultSelectedParticle : Particle := Particle.Air

/-- `main.rs` line 14. -/
def SIMULATION_WIDTH : Nat := 256

/-- `main.rs` line 15. -/
def SIMULATION_HEIGHT : Nat := 256

/-- `main.rs` line 16 (`BRUSH_SIZE: i32 = 5`). -/
def BRUSH_SIZE : Nat := 5

/-- The `as u32` view of a wrapped 32-bit integer computation.  In the
source, `(texture_pos.x as i32 + x_offset) as u32` first wraps the `u32`
into `i32`, adds with two's-complement wrap-around, and reinterprets as
`u32`; the composite is exactly reduction of the exact integer sum modulo
`2^32`. -/
def wrap32 (a : Int) : Nat := (a % 4294967296).toNat

/-- The bounds check and index computation of the paint loop body,
`main.rs` lines 303-307: the target pixel of a brush offset, or `none`
when the offset lands outside the simulation grid (silently skipped). -/
def pixelIdx (cx cy : Nat) (off : Int × Int) : Option Nat :=
  if wrap32 ((cx : Int) + off.1) < SIMULATION_WIDTH
      ∧ wrap32 ((cy : Int) + off.2) < SIMULATION_HEIGHT then
    some ((wrap32 ((cy : Int) + off.2) * SIMULATION_WIDTH
      + wrap32 ((cx : Int) + off.1)) * 4)
  else
    none

/-- One iteration of the paint loop body, `main.rs` lines 303-308:
writes byte `v` at the computed pixel index, or leaves the buffer alone
when the offset is out of bounds. -/
def paintPixel (cx cy v : Nat) (d : List Nat) (off : Int × Int) : List Nat :=
  match pixelIdx cx cy off with
  | none => d
  | some i => d.set i v

/-- The brush offset range `-R..=R` of `main.rs` lines 301-302. -/
def offsets (R : Nat) : List Int :=
  (List.range (2 * R + 1)).map (fun (k : Nat) => (k : Int) - (R : Int))

/-- The nested paint loops of `main.rs` lines 301-314: outer loop over
`y_offset`, inner loop over `x_offset`, writing byte `v` (the selected
particle's colour byte) into the red channel of each in-bounds covered
pixel of buffer `d`.  The source fixes `R = BRUSH_SIZE`; the radius is
kept as a parameter. -/
def paintData (d : List Nat) (cx cy R v : Nat) : List Nat :=
  (offsets R).foldl
    (fun acc yo =>
      (offsets R).foldl (fun acc2 xo => paintPixel cx cy v acc2 (xo, yo)) acc)
    d

/-- The image buffer built in `setup`, `main.rs` lines 111-119:
`vec![0; W*H*4]` followed by the bedrock-floor seeding loops (outer loop
over `x in 0..W`, inner over `y in 0..F`, writing the bedrock colour byte
at index `(y*W + x)*4`).  The source fixes `W = H = 256` and `F = 5`;
dimensions and floor height are kept as parameters. -/
def setupImageData (W H F : Nat) : List Nat :=
  (List.range W).foldl
    (fun d x =>
      (List.range F).foldl
        (fun d2 y => d2.set ((y * W + x) * 4) (colorByte Particle.Bedrock)) d)
    (List.replicate (W * H * 4) 0)

/-- Identity of one of the two `Image` assets created in `setup`
(`h_image_a` / `h_image_b`, `main.rs` lines 148-149). -/
inductive Handle where
  | a
  | b
deriving DecidableEq, Repr

/-- The `PingPong` resource, `main.rs` lines 76-80. -/
structure PingPong where
  read : Handle
  write : Handle
deriving DecidableEq, Repr

/-- The parts of the Bevy world the embedded systems touch: the two image
buffers, the `PingPong` resource, the `SimulationMaterial`'s
`source_image`, the render-to-texture camera's target, and the screen
sprite's image. -/
structure AppState where
  imgA : List Nat
  imgB : List Nat
  pp : PingPong
  materialSource : Handle
  cameraTarget : Handle
  spriteImage : Handle
deriving DecidableEq, Repr

/-- The image buffer a handle refers to. -/
def getImage (s : AppState) : Handle → List Nat
  | Handle.a => s.imgA
  | Handle.b => s.imgB

/-- Replace the image buffer a handle refers to. -/
def setImage (s : AppState) (h : Handle) (d : List Nat) : AppState :=
  match h with
  | Handle.a => { s with imgA := d }
  | Handle.b => { s with imgB := d }

/-- The `ping_pong` system, `main.rs` lines 215-238: swaps the two
handles of the `PingPong` resource (no buffer contents are touched), then
points the material at the new `read`, the offscreen camera at the new
`write`, and the screen sprite at the new `write`. -/
def pingPongSystem (s : AppState) : AppState :=
  let r := s.pp.read
  let w := s.pp.write
  { s with
    pp := { read := w, write := r }
    materialSource := w
    cameraTarget := r
    spriteImage := r }

/-- The buffer-mutating core of the `paint_on_texture` system, `main.rs`
lines 299-314: looks up the image behind `ping_pong.write` and paints the
brush square into it.  The cursor-to-texture-coordinate conversion (f32
arithmetic on lines 281-287) is outside the embedding; `cx cy` are the
resulting texture coordinates and `v` the selected particle's colour
byte. -/
def paintSystem (s : AppState) (cx cy R v : Nat) : AppState :=
  setImage s s.pp.write (paintData (getImage s s.pp.write) cx cy R v)

/-- The world as `setup` (`main.rs` lines 100-213) leaves it: both images
hold the seeded floor buffer, `PingPong { read: a, write: b }`, the
material reads `a`, the offscreen camera renders to `b`, and the sprite
displays `b`. -/
def initialAppState : AppState :=
  { imgA := setupImageData SIMULATION_WIDTH SIMULATION_HEIGHT 5
    imgB := setupImageData SIMULATION_WIDTH SIMULATION_HEIGHT 5
    pp := { read := Handle.a, write := Handle.b }
    materialSource := Handle.a
    cameraTarget := Handle.b
    spriteImage := Handle.b }

/-- Modelled from the spec: the particle grid of the Grid Store
(spec §3, §4.1), a fixed-size rectangular array of `Particle` stored
row-major (`cells[y * width + x]`), matching the pixel-buffer layout of
the source.  The update rules that operate on it are missing from `src/`
(they would live in `shaders/falling_sand.wgsl`). -/
structure Grid where
  width : Nat
  height : Nat
  cells : List Particle
deriving DecidableEq, Repr

/-- Row-major cell read; out-of-range reads default to `Air`. -/
def Grid.get (g : Grid) (x y : Nat) : Particle :=
  g.cells.getD (y * g.width + x) Particle.Air

/-- Row-major cell write. -/
def Grid.set (g : Grid) (x y : Nat) (p : Particle) : Grid :=
  { g with cells := g.cells.set (y * g.width + x) p }

/-- Row-major index of a coordinate pair. -/
def Grid.idx (g : Grid) (p : Nat × Nat) : Nat :=
  p.2 * g.width + p.1

/-- Exchange the contents of two cells ("swaps identity with the
occupant", spec §4.2). -/
def Grid.swapCells (g : Grid) (p q : Nat × Nat) : Grid :=
  let a := g.get p.1 p.2
  let b := g.get q.1 q.2
  (Grid.set g p.1 p.2 b).set q.1 q.2 a

/-- Modelled from the spec: the per-cell rule of the Update Rule Engine
(spec §4.2), deciding where the particle at `(x, y)` of grid `g` moves
this tick.  Gravity points toward row `0` (the source seeds its bedrock
floor at rows `0..5`).  Bedrock and Air never move; Sand falls into
Air/Water directly below, else diagonally down-left then down-right into
Air; Water does the same and, when fully blocked, moves laterally into
Air, left before right.  The spec requires a deterministic, documented
tie-break; this model fixes left-before-right.  Any move that would leave
the grid is suppressed (`none`). -/
def moveTarget (g : Grid) (x y : Nat) : Option (Nat × Nat) :=
  match g.get x y with
  | Particle.Sand =>
    if 0 < y ∧ (g.get x (y - 1) = Particle.Air ∨ g.get x (y - 1) = Particle.Water) then
      some (x, y - 1)
    else if 0 < y ∧ 0 < x ∧ g.get (x - 1) (y - 1) = Particle.Air then
      some (x - 1, y - 1)
    else if 0 < y ∧ x + 1 < g.width ∧ g.get (x + 1) (y - 1) = Particle.Air then
      some (x + 1, y - 1)
    else
      none
  | Particle.Water =>
    if 0 < y ∧ (g.get x (y - 1) = Particle.Air ∨ g.get x (y - 1) = Particle.Water) then
      some (x, y - 1)
    else if 0 < y ∧ 0 < x ∧ g.get (x - 1) (y - 1) = Particle.Air then
      some (x - 1, y - 1)
    else if 0 < y ∧ x + 1 < g.width ∧ g.get (x + 1) (y - 1) = Particle.Air then
      some (x + 1, y - 1)
    else if 0 < x ∧ g.get (x - 1) y = Particle.Air then
      some (x - 1, y)
    else if x + 1 < g.width ∧ g.get (x + 1) y = Particle.Air then
      some (x + 1, y)
    else
      none
  | _ => none

/-- Modelled from the spec: processing of one scan position (spec §4.2).
The rule decision reads only the tick-start grid `cur`; the accumulated
state is the grid being built plus the list of cells already claimed as
move targets this tick.  A mover whose target is already claimed loses
the race and stays (spec: "first writer for a given `next` coordinate
within the scan wins, later conflicting writers fall back to their
non-move branch").  A move is realised as a swap with the occupant, so
displaced Water moves into the vacated cell. -/
def applyRule (cur : Grid) (st : Grid × List (Nat × Nat)) (p : Nat × Nat) :
    Grid × List (Nat × Nat) :=
  match moveTarget cur p.1 p.2 with
  | none => st
  | some t => if t ∈ st.2 then st else (st.1.swapCells p t, t :: st.2)

/-- The fixed scan order (spec §4.2 requires one): bottom row first,
left to right within a row. -/
def positions (W H : Nat) : List (Nat × Nat) :=
  ((List.range H).map (fun y => (List.range W).map (fun x => (x, y)))).flatten

/-- Modelled from the spec: one tick of the Update Rule Engine
(spec §4.2, §4.4): every cell is processed once in the fixed scan order;
cells that do not move are carried over unchanged. -/
def step (g : Grid) : Grid :=
  ((positions g.width g.height).foldl (applyRule g) (g, [])).1

/-- `t` consecutive ticks. -/
def stepT : Nat → Grid → Grid
  | 0, g => g
  | Nat.succ t, g => stepT t (step g)

/-- `true` exactly on occupied (non-`Air`) cells. -/
def nonAir (p : Particle) : Bool := decide (p ≠ Particle.Air)

/-- Chebyshev distance between two natural coordinates. -/
def chebDist (a b : Nat) : Nat := max (a - b) (b - a)

/-- Scenario grid for the falling-sand property: a `W × H` grid holding a
Bedrock floor on rows `y < F`, a single Sand cell at `(x0, y0)`, and Air
everywhere else. -/
def sandGrid (W H F x0 y0 : Nat) : Grid :=
  { width := W
    height := H
    cells :=
      (List.range (W * H)).map fun i =>
        if i < F * W then Particle.Bedrock
        else if i = y0 * W + x0 then Particle.Sand
        else Particle.Air }

/-- Counterexample grid for claim C1: `3 × 2`, bottom row
`[Bedrock, Air, Air]`, top row `[Sand, Sand, Air]`.  The sand at `(1,1)`
has only Air below it, but the sand at `(0,1)` (blocked by Bedrock)
claims the cell `(1,0)` as its diagonal-down-right target first, so the
sand at `(1,1)` loses the race and stays for this tick. -/
def grid0 : Grid :=
  { width := 3
    height := 2
    cells := [Particle.Bedrock, Particle.Air, Particle.Air,
              Particle.Sand, Particle.Sand, Particle.Air] }

/-- Small concrete grid used by witnesses: `2 × 2`, cells
`[Bedrock, Air, Sand, Water]`. -/
def gridW : Grid :=
  { width := 2
    height := 2
    cells := [Particle.Bedrock, Particle.Air, Particle.Sand, Particle.Water] }

/-- Value of `List.set` at an arbitrary position. -/
theorem list_getD_set {α : Type} (l : List α) (i j : Nat) (a d : α) :
    (l.set i a).getD j d = if i = j ∧ j < l.length then a else l.getD j d := by
  by_cases h1 : i = j
  · subst h1
    by_cases h2 : i < l.length
    · simp [List.getD_eq_getElem?_getD, List.getElem?_set, h2]
    · rw [List.set_eq_of_length_le (Nat.le_of_not_lt h2)]
      simp [h2]
  · simp [List.getD_eq_getElem?_getD, List.getElem?_set, h1]

/-- Value of `List.replicate` at an arbitrary position. -/
theorem list_getD_replicate {α : Type} (n i : Nat) (c d : α) :
    (List.replicate n c).getD i d = if i < n then c else d := by
  rw [List.getD_eq_getElem?_getD, List.getElem?_replicate]
  by_cases h : i < n <;> simp [h]

/-- `List.set` exchanges the contribution of the old and new value to a
`countP`. -/
theorem list_countP_set {α : Type} (f : α → Bool) (l : List α) (i : Nat) (a d : α)
    (h : i < l.length) :
    (l.set i a).countP f + (if f (l.getD i d) then 1 else 0)
      = l.countP f + (if f a then 1 else 0) := by
  induction l generalizing i with
  | nil => simp at h
  | cons b t ih =>
    cases i with
    | zero =>
      simp only [List.set_cons_zero, List.countP_cons, List.getD_cons_zero]
      omega
    | succ i2 =>
      have h2 : i2 < t.length := by simpa using h
      have h3 := ih i2 h2
      simp only [List.set_cons_succ, List.countP_cons, List.getD_cons_succ]
      omega

/-- Row-major indices of in-bounds coordinates are in range. -/
theorem rowMajor_lt (W H x y : Nat) (hx : x < W) (hy : y < H) : y * W + x < W * H := by
  calc y * W + x < y * W + W := by omega
  _ = (y + 1) * W := by ring
  _ ≤ H * W := Nat.mul_le_mul_right W hy
  _ = W * H := Nat.mul_comm H W

/-- Row-major indexing is injective on coordinates with in-bounds
x-components. -/
theorem rowMajor_inj (W x1 y1 x2 y2 : Nat) (h1 : x1 < W) (h2 : x2 < W)
    (h : y1 * W + x1 = y2 * W + x2) : x1 = x2 ∧ y1 = y2 := by
  have e1 : (y1 * W + x1) % W = x1 % W := by
    rw [Nat.mul_comm y1 W]; exact Nat.mul_add_mod W y1 x1
  have e2 : (y2 * W + x2) % W = x2 % W := by
    rw [Nat.mul_comm y2 W]; exact Nat.mul_add_mod W y2 x2
  have ex : x1 = x2 := by
    rw [Nat.mod_eq_of_lt h1] at e1
    rw [Nat.mod_eq_of_lt h2] at e2
    rw [h] at e1
    omega
  subst ex
  have hm : y1 * W = y2 * W := by omega
  exact ⟨rfl, Nat.eq_of_mul_eq_mul_right (Nat.lt_of_le_of_lt (Nat.zero_le x1) h1) hm⟩

/-- Membership in the scan-order list. -/
theorem mem_positions (W H : Nat) (p : Nat × Nat) :
    p ∈ positions W H ↔ p.1 < W ∧ p.2 < H := by
  rcases p with ⟨x, y⟩
  simp only [positions, List.mem_flatten, List.mem_map, List.mem_range]
  constructor
  · rintro ⟨l, ⟨y0, hy0, rfl⟩, hx⟩
    rcases List.mem_map.mp hx with ⟨x0, hx0, hx0e⟩
    rcases Prod.mk.injEq .. ▸ hx0e with ⟨rfl, rfl⟩
    exact ⟨List.mem_range.mp hx0, hy0⟩
  · rintro ⟨hx, hy⟩
    exact ⟨(List.range W).map (fun x => (x, y)), ⟨y, hy, rfl⟩,
      List.mem_map.mpr ⟨x, List.mem_range.mpr hx, rfl⟩⟩

/-- Membership in the brush offset range. -/
theorem mem_offsets (R : Nat) (z : Int) :
    z ∈ offsets R ↔ -(R : Int) ≤ z ∧ z ≤ (R : Int) := by
  unfold offsets
  constructor
  · intro hz
    rcases List.mem_map.mp hz with ⟨k, hk, hke⟩
    rw [List.mem_range] at hk
    omega
  · intro h
    exact List.mem_map.mpr ⟨(z + (R : Int)).toNat, List.mem_range.mpr (by omega), by omega⟩

/-- A fold whose steps all fix the state returns the state. -/
theorem foldl_fix {σ α : Type} (f : σ → α → σ) (l : List α) (s : σ)
    (h : ∀ p ∈ l, f s p = s) : l.foldl f s = s := by
  induction l with
  | nil => rfl
  | cons a t ih =>
    rw [List.foldl_cons, h a (List.mem_cons_self a t)]
    exact ih (fun p hp => h p (List.mem_cons_of_mem a hp))

/-- A fold where every step other than `p0` is the identity on every
state, and `p0` is idempotent, computes the single application of `p0`. -/
theorem foldl_eq_of_fixed {σ α : Type} (f : σ → α → σ) (l : List α) (p0 : α) (s : σ)
    (hmem : p0 ∈ l)
    (hother : ∀ p ∈ l, p ≠ p0 → ∀ t, f t p = t)
    (hfix : f (f s p0) p0 = f s p0) : l.foldl f s = f s p0 := by
  induction l generalizing s with
  | nil => cases hmem
  | cons a t ih =>
    by_cases ha : a = p0
    · subst ha
      rw [List.foldl_cons]
      apply foldl_fix
      intro p hp
      by_cases hpa : p = a
      · subst hpa; exact hfix
      · exact hother p (List.mem_cons_of_mem a hp) hpa (f s a)
    · have hm2 : p0 ∈ t := by
        rcases List.mem_cons.mp hmem with h | h
        · exact absurd h.symm ha
        · exact h
      rw [List.foldl_cons, hother a (List.mem_cons_self a t) ha s]
      exact ih s hm2 (fun p hp hne => hother p (List.mem_cons_of_mem a hp) hne) hfix

/-- A property preserved by every step of a fold holds of the result. -/
theorem foldl_invariant {σ α : Type} (f : σ → α → σ) (P : σ → Prop) (l : List α) (s : σ)
    (h0 : P s) (hstep : ∀ t a, a ∈ l → P t → P (f t a)) : P (l.foldl f s) := by
  induction l generalizing s with
  | nil => exact h0
  | cons a t ih =>
    rw [List.foldl_cons]
    exact ih (f s a) (hstep s a (List.mem_cons_self a t) h0)
      (fun u b hb hu => hstep u b (List.mem_cons_of_mem a hb) hu)

/-- A fold of length-preserving steps preserves the buffer length. -/
theorem length_foldl_write {α : Type} (f : List Nat → α → List Nat)
    (hf : ∀ d a, (f d a).length = d.length) (l : List α) (d : List Nat) :
    (l.foldl f d).length = d.length := by
  induction l generalizing d with
  | nil => rfl
  | cons a t ih => rw [List.foldl_cons, ih (f d a), hf d a]

/-- Value, at an arbitrary index, of a fold whose every step writes the
same byte `v` at the (optional) index `w a`: the byte becomes `v` exactly
when some step writes in-range at that index; otherwise it is
untouched. -/
theorem getD_foldl_write {α : Type} (f : List Nat → α → List Nat) (w : α → Option Nat)
    (v i : Nat)
    (hf : ∀ d a, f d a = match w a with | none => d | some j => d.set j v) :
    ∀ (l : List α) (d : List Nat),
      (l.foldl f d).getD i 0
        = if (∃ a, a ∈ l ∧ w a = some i) ∧ i < d.length then v else d.getD i 0 := by
  intro l
  induction l with
  | nil =>
    intro d
    simp
  | cons a t ih =>
    intro d
    rw [List.foldl_cons, ih (f d a)]
    have hlen : (f d a).length = d.length := by
      rw [hf d a]
      cases hwa : w a <;> simp [List.length_set]
    have hval : (f d a).getD i 0
        = if w a = some i ∧ i < d.length then v else d.getD i 0 := by
      rw [hf d a]
      cases hwa : w a with
      | none => simp
      | some j =>
        simp only []
        rw [list_getD_set]
        by_cases hji : j = i
        · subst hji
          simp
        · simp [hji]
    rw [hlen, hval]
    by_cases hlt : i < d.length
    · by_cases ht : ∃ b, b ∈ t ∧ w b = some i
      · have hall : ∃ b, b ∈ a :: t ∧ w b = some i :=
          ⟨ht.choose, List.mem_cons_of_mem a ht.choose_spec.1, ht.choose_spec.2⟩
        simp [ht, hlt, hall]
      · by_cases hwa : w a = some i
        · have hall : ∃ b, b ∈ a :: t ∧ w b = some i := ⟨a, List.mem_cons_self a t, hwa⟩
          simp [ht, hlt, hwa, hall]
        · have hno : ¬ ∃ b, b ∈ a :: t ∧ w b = some i := by
            rintro ⟨b, hb, hwb⟩
            rcases List.mem_cons.mp hb with rfl | hbt
            · exact hwa hwb
            · exact ht ⟨b, hbt, hwb⟩
          simp [ht, hlt, hwa, hno]
    · simp [hlt]

/-- Two-level version of `getD_foldl_write` for the nested brush/seeding
loops. -/
theorem getD_foldl_write2 {α β : Type} (F : List Nat → α → List Nat) (l2 : List β)
    (w2 : α → β → Option Nat) (v i : Nat)
    (hF : ∀ d a, F d a
      = l2.foldl (fun d2 b => match w2 a b with | none => d2 | some j => d2.set j v) d) :
    ∀ (l1 : List α) (d : List Nat),
      (l1.foldl F d).getD i 0
        = if (∃ a, a ∈ l1 ∧ ∃ b, b ∈ l2 ∧ w2 a b = some i) ∧ i < d.length then v
          else d.getD i 0 := by
  intro l1
  induction l1 with
  | nil =>
    intro d
    simp
  | cons a t ih =>
    intro d
    rw [List.foldl_cons, ih (F d a)]
    have hlen : (F d a).length = d.length := by
      rw [hF d a]
      apply length_foldl_write
      intro d2 b
      cases hwb : w2 a b <;> simp [List.length_set]
    have hval : (F d a).getD i 0
        = if (∃ b, b ∈ l2 ∧ w2 a b = some i) ∧ i < d.length then v else d.getD i 0 := by
      rw [hF d a]
      exact getD_foldl_write _ (w2 a) v i (fun d2 b => rfl) l2 d
    rw [hlen, hval]
    by_cases hlt : i < d.length
    · by_cases ht : ∃ c, c ∈ t ∧ ∃ b, b ∈ l2 ∧ w2 c b = some i
      · have hall : ∃ c, c ∈ a :: t ∧ ∃ b, b ∈ l2 ∧ w2 c b = some i :=
          ⟨ht.choose, List.mem_cons_of_mem a ht.choose_spec.1, ht.choose_spec.2⟩
        simp [ht, hlt, hall]
      · by_cases hwa : ∃ b, b ∈ l2 ∧ w2 a b = some i
        · have hall : ∃ c, c ∈ a :: t ∧ ∃ b, b ∈ l2 ∧ w2 c b = some i :=
            ⟨a, List.mem_cons_self a t, hwa⟩
          simp [ht, hlt, hwa, hall]
        · have hno : ¬ ∃ c, c ∈ a :: t ∧ ∃ b, b ∈ l2 ∧ w2 c b = some i := by
            rintro ⟨c, hc, hcb⟩
            rcases List.mem_cons.mp hc with rfl | hct
            · exact hwa hcb
            · exact ht ⟨c, hct, hcb⟩
          simp [ht, hlt, hwa, hno]
    · simp [hlt]

/-- Byte-level characterisation of the paint operation: a byte becomes
`v` exactly when some in-range brush offset targets it. -/
theorem paintData_getD (d : List Nat) (cx cy R v i : Nat) :
    (paintData d cx cy R v).getD i 0
      = if (∃ yo, yo ∈ offsets R
              ∧ ∃ xo, xo ∈ offsets R ∧ pixelIdx cx cy (xo, yo) = some i)
            ∧ i < d.length then v
        else d.getD i 0 := by
  unfold paintData
  exact getD_foldl_write2 _ (offsets R) (fun yo xo => pixelIdx cx cy (xo, yo)) v i
    (fun d2 a => rfl) (offsets R) d

/-- Byte-level characterisation of the seeded startup buffer. -/
theorem setupImageData_getD (W H F i : Nat) :
    (setupImageData W H F).getD i 0
      = if (∃ x, x ∈ List.range W
              ∧ ∃ y, y ∈ List.range F ∧ (some ((y * W + x) * 4) : Option Nat) = some i)
            ∧ i < W * H * 4 then colorByte Particle.Bedrock
        else (List.replicate (W * H * 4) (0 : Nat)).getD i 0 := by
  unfold setupImageData
  rw [getD_foldl_write2 _ (List.range F)
    (fun (x y : Nat) => (some ((y * W + x) * 4) : Option Nat)) (colorByte Particle.Bedrock) i
    (fun d2 a => rfl) (List.range W) (List.replicate (W * H * 4) 0)]
  rw [List.length_replicate]

/-- For sums that stay inside the `i32` range, the wrapped cast chain of
the paint loop is the identity on the exact value: it hits a coordinate
below 256 exactly when the exact sum equals it. -/
theorem wrap32_small (a : Int) (x : Nat) (hx : x < 256)
    (h1 : -(2147483648 : Int) ≤ a) (h2 : a < 2147483648) :
    wrap32 a = x ↔ a = (x : Int) := by
  unfold wrap32
  omega

/-- When a brush offset produces the index of the in-bounds cell `(x, y)`,
the wrapped coordinates are exactly `(x, y)`. -/
theorem pixelIdx_eq_some (cx cy : Nat) (xo yo : Int) (x y : Nat)
    (hx : x < 256) (hy : y < 256) :
    pixelIdx cx cy (xo, yo) = some ((y * 256 + x) * 4)
      ↔ wrap32 ((cx : Int) + xo) = x ∧ wrap32 ((cy : Int) + yo) = y := by
  simp only [pixelIdx, SIMULATION_WIDTH, SIMULATION_HEIGHT]
  by_cases hb : wrap32 ((cx : Int) + xo) < 256 ∧ wrap32 ((cy : Int) + yo) < 256
  · rw [if_pos hb]
    constructor
    · intro he
      have he2 := Option.some.inj he
      have he3 : wrap32 ((cy : Int) + yo) * 256 + wrap32 ((cx : Int) + xo)
          = y * 256 + x := by omega
      have hinj := rowMajor_inj 256 _ _ _ _ hb.1 hx he3
      exact ⟨hinj.1, hinj.2⟩
    · rintro ⟨h1, h2⟩
      rw [h1, h2]
  · rw [if_neg hb]
    constructor
    · intro h
      cases h
    · rintro ⟨h1, h2⟩
      exact absurd ⟨by rw [h1]; exact hx, by rw [h2]; exact hy⟩ hb

/-- Claim C2: a paint operation mutates only the image behind the
`write` handle, which is the one the screen sprite presents (the sprite
is pointed at `write` both by `setup` and at the end of every
`ping_pong`); the other buffer's bytes are untouched. -/
theorem paint_targets_presented_grid (s : AppState) (cx cy R v : Nat)
    (hpres : s.spriteImage = s.pp.write) :
    getImage (paintSystem s cx cy R v) s.spriteImage
        = paintData (getImage s s.spriteImage) cx cy R v
      ∧ ∀ h : Handle, h ≠ s.spriteImage →
        getImage (paintSystem s cx cy R v) h = getImage s h := by
  constructor
  · rw [hpres]
    cases hw : s.pp.write <;> simp [paintSystem, getImage, setImage, hw]
  · intro h hh
    rw [hpres] at hh
    cases hw : s.pp.write <;> rw [hw] at hh <;> cases h <;>
      simp_all [paintSystem, getImage, setImage]

/-- Witness for C2 at the startup state. -/
theorem paint_targets_presented_grid_witness :
    getImage (paintSystem initialAppState 3 4 5 25) Handle.b
        = paintData (getImage initialAppState Handle.b) 3 4 5 25
      ∧ getImage (paintSystem initialAppState 3 4 5 25) Handle.a
        = getImage initialAppState Handle.a :=
  ⟨(paint_targets_presented_grid initialAppState 3 4 5 25 rfl).1,
    (paint_targets_presented_grid initialAppState 3 4 5 25 rfl).2 Handle.a (by decide)⟩

/-- Claim C4: painting with centre `(cx, cy)` and radius `R` sets the red
byte of exactly the in-bounds cells at Chebyshev distance at most `R`
from the centre to the brush byte `v` (overwriting whatever was there,
Bedrock included); every other cell keeps its red byte; out-of-bounds
offsets are skipped.  The overflow-free hypotheses cover every centre the
cursor math can produce (coordinates never exceed 256). -/
theorem paint_brush_chebyshev (d : List Nat) (cx cy R v x y : Nat)
    (hx : x < 256) (hy : y < 256)
    (hcx : cx + R < 2147483648) (hcy : cy + R < 2147483648)
    (hi : (y * 256 + x) * 4 < d.length) :
    (paintData d cx cy R v).getD ((y * 256 + x) * 4) 0
      = if chebDist x cx ≤ R ∧ chebDist y cy ≤ R then v
        else d.getD ((y * 256 + x) * 4) 0 := by
  rw [paintData_getD]
  have hiff : (∃ yo, yo ∈ offsets R
        ∧ ∃ xo, xo ∈ offsets R ∧ pixelIdx cx cy (xo, yo) = some ((y * 256 + x) * 4))
      ↔ chebDist x cx ≤ R ∧ chebDist y cy ≤ R := by
    constructor
    · rintro ⟨yo, hyo, xo, hxo, hpe⟩
      rw [mem_offsets] at hyo hxo
      rw [pixelIdx_eq_some cx cy xo yo x y hx hy] at hpe
      rcases hpe with ⟨hex, hey⟩
      rw [wrap32_small ((cx : Int) + xo) x hx (by omega) (by omega)] at hex
      rw [wrap32_small ((cy : Int) + yo) y hy (by omega) (by omega)] at hey
      unfold chebDist
      rw [Nat.max_le, Nat.max_le]
      constructor <;> constructor <;> omega
    · rintro ⟨h1, h2⟩
      unfold chebDist at h1 h2
      rw [Nat.max_le] at h1 h2
      refine ⟨(y : Int) - (cy : Int), ?_, (x : Int) - (cx : Int), ?_, ?_⟩
      · rw [mem_offsets]
        omega
      · rw [mem_offsets]
        omega
      · rw [pixelIdx_eq_some cx cy _ _ x y hx hy]
        constructor
        · rw [wrap32_small _ x hx (by omega) (by omega)]
          omega
        · rw [wrap32_small _ y hy (by omega) (by omega)]
          omega
  by_cases hc : chebDist x cx ≤ R ∧ chebDist y cy ≤ R
  · rw [if_pos ⟨hiff.mpr hc, hi⟩, if_pos hc]
  · rw [if_neg (fun hcond => hc (hiff.mp hcond.1)), if_neg hc]

/-- Witness for C4: the cell at the brush centre is painted. -/
theorem paint_brush_chebyshev_witness :
    (paintData [9] 0 0 1 5).getD ((0 * 256 + 0) * 4) 0
      = if chebDist 0 0 ≤ 1 ∧ chebDist 0 0 ≤ 1 then 5
        else [9].getD ((0 * 256 + 0) * 4) 0 :=
  paint_brush_chebyshev [9] 0 0 1 5 0 0 (by decide) (by decide) (by decide) (by decide)
    (by decide)

/-- Claim C6 counterexample: the startup value of the selected particle
is not Sand (the derived `Default` picks `Particle`'s `#[default]`
variant, which is `Air`). -/
theorem selected_default_not_sand : defaultSelectedParticle ≠ Particle.Sand := by
  decide

/-- Claim C6 as amended: at startup the process-wide selection is `Air`,
so the first paint with the default selection writes the `Air` colour
byte `0` (it erases rather than painting Sand). -/
theorem selected_default_is_air :
    defaultSelectedParticle = Particle.Air ∧ colorByte defaultSelectedParticle = 0 := by
  decide

/-- Claim C7: the handle swap of `ping_pong` is an involution on the
`PingPong` resource, and a single swap exchanges the two roles without
reading or writing any buffer contents. -/
theorem pingpong_swap_involution (s : AppState) :
    (pingPongSystem (pingPongSystem s)).pp = s.pp
      ∧ (pingPongSystem s).pp.read = s.pp.write
      ∧ (pingPongSystem s).pp.write = s.pp.read
      ∧ (pingPongSystem s).imgA = s.imgA
      ∧ (pingPongSystem s).imgB = s.imgB
      ∧ (pingPongSystem (pingPongSystem s)).imgA = s.imgA
      ∧ (pingPongSystem (pingPongSystem s)).imgB = s.imgB :=
  ⟨rfl, rfl, rfl, rfl, rfl, rfl, rfl⟩

/-- Claim C8: after construction, a cell's red byte is the Bedrock byte
exactly on the seeded floor rows `y < F` and the Air byte `0` everywhere
else; with `F = 0` (no seeding) every cell is Air. -/
theorem setup_floor_seeding (W H F x y : Nat) (hF : F ≤ H) (hx : x < W) (hy : y < H) :
    (setupImageData W H F).getD ((y * W + x) * 4) 0
      = if y < F then colorByte Particle.Bedrock else colorByte Particle.Air := by
  rw [setupImageData_getD]
  have hlen : (y * W + x) * 4 < W * H * 4 :=
    (Nat.mul_lt_mul_right (by omega : 0 < 4)).mpr (rowMajor_lt W H x y hx hy)
  by_cases hyF : y < F
  · rw [if_pos hyF]
    exact if_pos ⟨⟨x, List.mem_range.mpr hx, y, List.mem_range.mpr hyF, rfl⟩, hlen⟩
  · rw [if_neg hyF]
    have hno : ¬ ((∃ a, a ∈ List.range W
          ∧ ∃ b, b ∈ List.range F ∧ (some ((b * W + a) * 4) : Option Nat)
            = some ((y * W + x) * 4))
        ∧ (y * W + x) * 4 < W * H * 4) := by
      rintro ⟨⟨a, ha, b, hb, he⟩, hl2⟩
      have he2 : (b * W + a) * 4 = (y * W + x) * 4 := Option.some.inj he
      have he3 : b * W + a = y * W + x := by omega
      have hinj := rowMajor_inj W a b x y (List.mem_range.mp ha) hx he3
      exact hyF (hinj.2 ▸ List.mem_range.mp hb)
    rw [if_neg hno, list_getD_replicate]
    rw [if_pos hlen]
    rfl

/-- Witness for C8 on a 2-by-3 grid with a one-row floor. -/
theorem setup_floor_seeding_witness :
    (setupImageData 2 3 1).getD ((0 * 2 + 1) * 4) 0
      = if 0 < 1 then colorByte Particle.Bedrock else colorByte Particle.Air :=
  setup_floor_seeding 2 3 1 1 0 (by decide) (by decide) (by decide)

/-- Claim C9: a tick (`ping_pong`) reads and writes no cell of either
buffer; it only exchanges the two roles and redirects the material
(to the new `read`), the offscreen camera and the sprite (to the new
`write`). -/
theorem pingpong_tick_no_cell_writes (s : AppState) :
    (pingPongSystem s).imgA = s.imgA
      ∧ (pingPongSystem s).imgB = s.imgB
      ∧ (pingPongSystem s).pp.read = s.pp.write
      ∧ (pingPongSystem s).pp.write = s.pp.read
      ∧ (pingPongSystem s).materialSource = s.pp.write
      ∧ (pingPongSystem s).cameraTarget = s.pp.read
      ∧ (pingPongSystem s).spriteImage = s.pp.read :=
  ⟨rfl, rfl, rfl, rfl, rfl, rfl, rfl⟩

/-- Claim C10: paint only ever writes bytes at indices of the form
`(y*W + x)*4` (the red channel); the three trailing bytes of every
4-byte pixel are unchanged by any paint operation. -/
theorem paint_preserves_non_red_bytes (d : List Nat) (cx cy R v i : Nat)
    (hi : i % 4 ≠ 0) :
    (paintData d cx cy R v).getD i 0 = d.getD i 0 := by
  rw [paintData_getD]
  have hno : ¬ ((∃ yo, yo ∈ offsets R
        ∧ ∃ xo, xo ∈ offsets R ∧ pixelIdx cx cy (xo, yo) = some i)
      ∧ i < d.length) := by
    rintro ⟨⟨yo, hyo, xo, hxo, hpe⟩, hlen⟩
    unfold pixelIdx at hpe
    by_cases hb : wrap32 ((cx : Int) + xo) < SIMULATION_WIDTH
        ∧ wrap32 ((cy : Int) + yo) < SIMULATION_HEIGHT
    · rw [if_pos hb] at hpe
      have he := Option.some.inj hpe
      exact hi (by omega)
    · rw [if_neg hb] at hpe
      cases hpe
  rw [if_neg hno]

/-- Witness for C10 at the green-channel byte of pixel 0. -/
theorem paint_preserves_non_red_bytes_witness :
    (paintData [3, 4, 5, 6] 1 1 1 9).getD 1 0 = [3, 4, 5, 6].getD 1 0 :=
  paint_preserves_non_red_bytes [3, 4, 5, 6] 1 1 1 9 1 (by decide)

/-- `Grid.set` keeps the dimensions. -/
theorem Grid.width_set (g : Grid) (x y : Nat) (p : Particle) :
    (Grid.set g x y p).width = g.width := rfl

/-- `Grid.set` keeps the dimensions. -/
theorem Grid.height_set (g : Grid) (x y : Nat) (p : Particle) :
    (Grid.set g x y p).height = g.height := rfl

/-- `Grid.swapCells` keeps the dimensions. -/
theorem swapCells_width (g : Grid) (p q : Nat × Nat) :
    (g.swapCells p q).width = g.width := rfl

/-- `Grid.swapCells` keeps the dimensions. -/
theorem swapCells_height (g : Grid) (p q : Nat × Nat) :
    (g.swapCells p q).height = g.height := rfl

/-- `Grid.swapCells` keeps the cell count. -/
theorem swapCells_length (g : Grid) (p q : Nat × Nat) :
    (g.swapCells p q).cells.length = g.cells.length := by
  simp [Grid.swapCells, Grid.set, List.length_set]

/-- A cell at an index touched by neither half of a swap is unchanged. -/
theorem get_swapCells_ne (g : Grid) (p q : Nat × Nat) (x y : Nat)
    (h1 : y * g.width + x ≠ q.2 * g.width + q.1)
    (h2 : y * g.width + x ≠ p.2 * g.width + p.1) :
    (g.swapCells p q).get x y = g.get x y := by
  simp only [Grid.swapCells, Grid.get, Grid.set]
  rw [list_getD_set]
  rw [if_neg (fun hc => h1 hc.1.symm)]
  rw [list_getD_set]
  rw [if_neg (fun hc => h2 hc.1.symm)]

/-- Swapping two distinct in-range entries of a list preserves any
`countP`. -/
theorem list_countP_swap {α : Type} (f : α → Bool) (l : List α) (i j : Nat) (d : α)
    (hi : i < l.length) (hj : j < l.length) (hij : i ≠ j) :
    ((l.set i (l.getD j d)).set j (l.getD i d)).countP f = l.countP f := by
  have h1 := list_countP_set f l i (l.getD j d) d hi
  have h2 := list_countP_set f (l.set i (l.getD j d)) j (l.getD i d) d
    (by rw [List.length_set]; exact hj)
  have h3 : (l.set i (l.getD j d)).getD j d = l.getD j d := by
    rw [list_getD_set, if_neg (fun hc => hij hc.1)]
  rw [h3] at h2
  omega

/-- `Grid.swapCells` on two distinct in-range cells preserves any
`countP` over the cells. -/
theorem countP_swapCells (f : Particle → Bool) (g : Grid) (p q : Nat × Nat)
    (hp : p.2 * g.width + p.1 < g.cells.length)
    (hq : q.2 * g.width + q.1 < g.cells.length)
    (hne : p.2 * g.width + p.1 ≠ q.2 * g.width + q.1) :
    (g.swapCells p q).cells.countP f = g.cells.countP f := by
  simp only [Grid.swapCells, Grid.get, Grid.set]
  exact list_countP_swap f g.cells _ _ Particle.Air hp hq hne

/-- Cells holding `Air` or `Bedrock` never move. -/
theorem moveTarget_none_of_still (g : Grid) (x y : Nat)
    (h : g.get x y = Particle.Air ∨ g.get x y = Particle.Bedrock) :
    moveTarget g x y = none := by
  rcases h with h | h <;> simp [moveTarget, h]

/-- Only `Sand` and `Water` cells move. -/
theorem moveTarget_source (g : Grid) (x y : Nat) (t : Nat × Nat)
    (h : moveTarget g x y = some t) :
    g.get x y = Particle.Sand ∨ g.get x y = Particle.Water := by
  cases hg : g.get x y with
  | Air => simp [moveTarget, hg] at h
  | Bedrock => simp [moveTarget, hg] at h
  | Sand => exact Or.inl rfl
  | Water => exact Or.inr rfl

/-- A move target is in bounds, holds `Air` or `Water` in the tick-start
grid, and is distinct from the source. -/
theorem moveTarget_spec (g : Grid) (x y : Nat) (t : Nat × Nat)
    (hx : x < g.width) (hy : y < g.height)
    (h : moveTarget g x y = some t) :
    t.1 < g.width ∧ t.2 < g.height
      ∧ (g.get t.1 t.2 = Particle.Air ∨ g.get t.1 t.2 = Particle.Water)
      ∧ t ≠ (x, y) := by
  cases hg : g.get x y with
  | Air => simp [moveTarget, hg] at h
  | Bedrock => simp [moveTarget, hg] at h
  | Sand =>
    simp only [moveTarget, hg] at h
    split_ifs at h with h1 h2 h3
    · obtain rfl := (Option.some.inj h).symm
      refine ⟨hx, by omega, h1.2, ?_⟩
      intro hc
      rw [Prod.mk.injEq] at hc
      omega
    · obtain rfl := (Option.some.inj h).symm
      refine ⟨by omega, by omega, Or.inl h2.2.2, ?_⟩
      intro hc
      rw [Prod.mk.injEq] at hc
      omega
    · obtain rfl := (Option.some.inj h).symm
      refine ⟨by omega, by omega, Or.inl h3.2.2, ?_⟩
      intro hc
      rw [Prod.mk.injEq] at hc
      omega
  | Water =>
    simp only [moveTarget, hg] at h
    split_ifs at h with h1 h2 h3 h4 h5
    · obtain rfl := (Option.some.inj h).symm
      refine ⟨hx, by omega, h1.2, ?_⟩
      intro hc
      rw [Prod.mk.injEq] at hc
      omega
    · obtain rfl := (Option.some.inj h).symm
      refine ⟨by omega, by omega, Or.inl h2.2.2, ?_⟩
      intro hc
      rw [Prod.mk.injEq] at hc
      omega
    · obtain rfl := (Option.some.inj h).symm
      refine ⟨by omega, by omega, Or.inl h3.2.2, ?_⟩
      intro hc
      rw [Prod.mk.injEq] at hc
      omega
    · obtain rfl := (Option.some.inj h).symm
      refine ⟨by omega, hy, Or.inl h4.2, ?_⟩
      intro hc
      rw [Prod.mk.injEq] at hc
      omega
    · obtain rfl := (Option.some.inj h).symm
      refine ⟨by omega, hy, Or.inl h5.2, ?_⟩
      intro hc
      rw [Prod.mk.injEq] at hc
      omega

/-- Scan positions with no move are no-ops. -/
theorem applyRule_none (g : Grid) (st : Grid × List (Nat × Nat)) (p : Nat × Nat)
    (h : moveTarget g p.1 p.2 = none) : applyRule g st p = st := by
  simp [applyRule, h]

/-- Processing a scan position twice is the same as processing it once:
after the first pass its target is claimed. -/
theorem applyRule_idem (g : Grid) (st : Grid × List (Nat × Nat)) (p : Nat × Nat) :
    applyRule g (applyRule g st p) p = applyRule g st p := by
  cases hmt : moveTarget g p.1 p.2 with
  | none => simp [applyRule, hmt]
  | some t =>
    by_cases hm : t ∈ st.2
    · simp [applyRule, hmt, hm]
    · simp [applyRule, hmt, hm]

/-- A scan step either leaves the state alone or performs one claimed
swap. -/
theorem applyRule_cases (g : Grid) (st : Grid × List (Nat × Nat)) (p : Nat × Nat) :
    applyRule g st p = st
      ∨ ∃ t, moveTarget g p.1 p.2 = some t ∧ t ∉ st.2
          ∧ applyRule g st p = (st.1.swapCells p t, t :: st.2) := by
  cases hmt : moveTarget g p.1 p.2 with
  | none => exact Or.inl (applyRule_none g st p hmt)
  | some t =>
    by_cases hm : t ∈ st.2
    · exact Or.inl (by simp [applyRule, hmt, hm])
    · exact Or.inr ⟨t, rfl, hm, by simp [applyRule, hmt, hm]⟩

/-- A tick preserves the grid dimensions and the number of cells. -/
theorem step_dims (g : Grid) :
    (step g).width = g.width ∧ (step g).height = g.height
      ∧ (step g).cells.length = g.cells.length := by
  unfold step
  refine foldl_invariant (applyRule g)
    (fun st => st.1.width = g.width ∧ st.1.height = g.height
      ∧ st.1.cells.length = g.cells.length)
    (positions g.width g.height) (g, []) ⟨rfl, rfl, rfl⟩ ?_
  intro st p hp hst
  rcases applyRule_cases g st p with he | ⟨t, hmt, hm, he⟩
  · rw [he]
    exact hst
  · rw [he]
    exact ⟨(swapCells_width st.1 p t).trans hst.1,
      (swapCells_height st.1 p t).trans hst.2.1,
      (swapCells_length st.1 p t).trans hst.2.2⟩

/-- One tick leaves every Bedrock cell in place: moves start only from
Sand/Water cells and end only in Air/Water cells, so neither half of any
swap ever touches a Bedrock coordinate. -/
theorem step_get_bedrock (g : Grid) (x y : Nat) (hx : x < g.width) (hy : y < g.height)
    (hb : g.get x y = Particle.Bedrock) :
    (step g).get x y = Particle.Bedrock := by
  unfold step
  have h := foldl_invariant (applyRule g)
    (fun st => st.1.width = g.width ∧ st.1.get x y = Particle.Bedrock)
    (positions g.width g.height) (g, []) ⟨rfl, hb⟩ ?_
  · exact h.2
  intro st p hp hst
  rcases applyRule_cases g st p with he | ⟨t, hmt, hm, he⟩
  · rw [he]
    exact hst
  · rw [he]
    refine ⟨(swapCells_width st.1 p t).trans hst.1, ?_⟩
    have hpmem := (mem_positions g.width g.height p).mp hp
    have hsrc := moveTarget_source g p.1 p.2 t hmt
    have hspec := moveTarget_spec g p.1 p.2 t hpmem.1 hpmem.2 hmt
    have hne1 : y * st.1.width + x ≠ t.2 * st.1.width + t.1 := by
      rw [hst.1]
      intro hc
      have hinj := rowMajor_inj g.width x y t.1 t.2 hx hspec.1 hc
      rcases hspec.2.2.1 with ho | ho <;>
        (rw [← hinj.1, ← hinj.2] at ho; rw [hb] at ho; exact Particle.noConfusion ho)
    have hne2 : y * st.1.width + x ≠ p.2 * st.1.width + p.1 := by
      rw [hst.1]
      intro hc
      have hinj := rowMajor_inj g.width x y p.1 p.2 hx hpmem.1 hc
      rcases hsrc with ho | ho <;>
        (rw [← hinj.1, ← hinj.2] at ho; rw [hb] at ho; exact Particle.noConfusion ho)
    rw [get_swapCells_ne st.1 p t x y hne1 hne2]
    exact hst.2

/-- One tick preserves the number of occupied cells: every realised move
is a swap of two distinct in-range cells. -/
theorem step_countP (g : Grid) (hwf : g.cells.length = g.width * g.height) :
    (step g).cells.countP nonAir = g.cells.countP nonAir := by
  unfold step
  have h := foldl_invariant (applyRule g)
    (fun st => st.1.width = g.width ∧ st.1.cells.length = g.cells.length
      ∧ st.1.cells.countP nonAir = g.cells.countP nonAir)
    (positions g.width g.height) (g, []) ⟨rfl, rfl, rfl⟩ ?_
  · exact h.2.2
  intro st p hp hst
  rcases applyRule_cases g st p with he | ⟨t, hmt, hm, he⟩
  · rw [he]
    exact hst
  · rw [he]
    refine ⟨(swapCells_width st.1 p t).trans hst.1,
      (swapCells_length st.1 p t).trans hst.2.1, ?_⟩
    have hpmem := (mem_positions g.width g.height p).mp hp
    have hspec := moveTarget_spec g p.1 p.2 t hpmem.1 hpmem.2 hmt
    have hplt : p.2 * st.1.width + p.1 < st.1.cells.length := by
      rw [hst.1, hst.2.1, hwf]
      exact rowMajor_lt g.width g.height p.1 p.2 hpmem.1 hpmem.2
    have htlt : t.2 * st.1.width + t.1 < st.1.cells.length := by
      rw [hst.1, hst.2.1, hwf]
      exact rowMajor_lt g.width g.height t.1 t.2 hspec.1 hspec.2.1
    have hne : p.2 * st.1.width + p.1 ≠ t.2 * st.1.width + t.1 := by
      rw [hst.1]
      intro hc
      have hinj := rowMajor_inj g.width p.1 p.2 t.1 t.2 hpmem.1 hspec.1 hc
      apply hspec.2.2.2
      rcases t with ⟨t1, t2⟩
      rw [Prod.mk.injEq]
      exact ⟨hinj.1.symm, hinj.2.symm⟩
    rw [countP_swapCells nonAir st.1 p t hplt htlt hne]
    exact hst.2.2

/-- `stepT` preserves dimensions and cell count. -/
theorem stepT_dims (t : Nat) (g : Grid) :
    (stepT t g).width = g.width ∧ (stepT t g).height = g.height
      ∧ (stepT t g).cells.length = g.cells.length := by
  induction t generalizing g with
  | zero => exact ⟨rfl, rfl, rfl⟩
  | succ n ih =>
    simp only [stepT]
    have hd := step_dims g
    have hn := ih (step g)
    exact ⟨hn.1.trans hd.1, hn.2.1.trans hd.2.1, hn.2.2.trans hd.2.2⟩

/-- Claim C3: an in-bounds cell that holds Bedrock and is never painted
still holds Bedrock after any number of ticks, whatever its neighbours
are. -/
theorem bedrock_immutable (g : Grid) (x y t : Nat) (hx : x < g.width)
    (hy : y < g.height) (hb : g.get x y = Particle.Bedrock) :
    (stepT t g).get x y = Particle.Bedrock := by
  induction t generalizing g with
  | zero => exact hb
  | succ n ih =>
    simp only [stepT]
    have hd := step_dims g
    refine ih (step g) ?_ ?_ (step_get_bedrock g x y hx hy hb)
    · rw [hd.1]
      exact hx
    · rw [hd.2.1]
      exact hy

/-- Witness for C3 on a concrete grid with a Bedrock cell at the
origin. -/
theorem bedrock_immutable_witness : (stepT 2 gridW).get 0 0 = Particle.Bedrock :=
  bedrock_immutable gridW 0 0 2 (by decide) (by decide) (by decide)

/-- Claim C5: with no painting, ticks preserve the total number of
non-Air cells, and every cell always holds exactly one particle (the
cell list keeps its length, one particle per cell). -/
theorem tick_conserves_occupancy (g : Grid) (t : Nat)
    (hwf : g.cells.length = g.width * g.height) :
    (stepT t g).cells.countP nonAir = g.cells.countP nonAir
      ∧ (stepT t g).cells.length = g.cells.length := by
  induction t generalizing g with
  | zero => exact ⟨rfl, rfl⟩
  | succ n ih =>
    simp only [stepT]
    have hd := step_dims g
    have hwf2 : (step g).cells.length = (step g).width * (step g).height := by
      rw [hd.1, hd.2.1, hd.2.2]
      exact hwf
    have hn := ih (step g) hwf2
    exact ⟨hn.1.trans (step_countP g hwf), hn.2.trans hd.2.2⟩

/-- Witness for C5 on a concrete grid holding one Bedrock, one Sand and
one Water cell. -/
theorem tick_conserves_occupancy_witness :
    (stepT 3 gridW).cells.countP nonAir = gridW.cells.countP nonAir
      ∧ (stepT 3 gridW).cells.length = gridW.cells.length :=
  tick_conserves_occupancy gridW 3 (by decide)

/-- `sandGrid` dimensions. -/
theorem sandGrid_width (W H F x0 y0 : Nat) : (sandGrid W H F x0 y0).width = W := rfl

/-- `sandGrid` dimensions. -/
theorem sandGrid_height (W H F x0 y0 : Nat) : (sandGrid W H F x0 y0).height = H := rfl

/-- A cell on a row below `F` has a row-major index below `F * W`. -/
theorem rowMajor_lt_rows (W x y F : Nat) (hx : x < W) (hyF : y < F) :
    y * W + x < F * W := by
  have e : (y + 1) * W = y * W + W := by ring
  have h2 : (y + 1) * W ≤ F * W := Nat.mul_le_mul_right W hyF
  omega

/-- A cell on a row at or above `F` has a row-major index at or above
`F * W`. -/
theorem rowMajor_ge_rows (W x y F : Nat) (hFy : F ≤ y) : F * W ≤ y * W + x := by
  have := Nat.mul_le_mul_right W hFy
  omega

/-- Pointwise description of the single-sand scenario grid. -/
theorem sandGrid_get (W H F x0 y0 x y : Nat) (hx0 : x0 < W) (hx : x < W) (hy : y < H) :
    (sandGrid W H F x0 y0).get x y
      = if y < F then Particle.Bedrock
        else if x = x0 ∧ y = y0 then Particle.Sand
        else Particle.Air := by
  have hlt : y * W + x < W * H := rowMajor_lt W H x y hx hy
  show ((List.range (W * H)).map fun i =>
      if i < F * W then Particle.Bedrock
      else if i = y0 * W + x0 then Particle.Sand
      else Particle.Air).getD (y * W + x) Particle.Air = _
  rw [List.getD_eq_getElem?_getD, List.getElem?_map, List.getElem?_range hlt]
  simp only [Option.map_some', Option.getD_some]
  by_cases h1 : y < F
  · rw [if_pos h1, if_pos (rowMajor_lt_rows W x y F hx h1)]
  · have hge := rowMajor_ge_rows W x y F (by omega)
    rw [if_neg h1, if_neg (by omega)]
    by_cases h2 : x = x0 ∧ y = y0
    · rw [if_pos (by rw [h2.1, h2.2]), if_pos h2]
    · rw [if_neg (fun hc => h2 ⟨(rowMajor_inj W x y x0 y0 hx hx0 hc).1,
        (rowMajor_inj W x y x0 y0 hx hx0 hc).2⟩), if_neg h2]

/-- While strictly above the floor, the lone sand cell falls straight
down. -/
theorem sandGrid_moveTarget_fall (W H F x0 y0 : Nat) (hx0 : x0 < W) (hy : y0 < H)
    (hF : F < y0) :
    moveTarget (sandGrid W H F x0 y0) x0 y0 = some (x0, y0 - 1) := by
  have hs : (sandGrid W H F x0 y0).get x0 y0 = Particle.Sand := by
    rw [sandGrid_get W H F x0 y0 x0 y0 hx0 hx0 hy, if_neg (by omega), if_pos ⟨rfl, rfl⟩]
  have hbelow : (sandGrid W H F x0 y0).get x0 (y0 - 1) = Particle.Air := by
    rw [sandGrid_get W H F x0 y0 x0 (y0 - 1) hx0 hx0 (by omega), if_neg (by omega),
      if_neg (fun hc => by omega)]
  simp [moveTarget, hs, hbelow, show 0 < y0 by omega]

/-- Resting directly on the floor (or on the bottom row when `F = 0`),
the lone sand cell has no move: straight down and both diagonals are
Bedrock or outside the grid. -/
theorem sandGrid_moveTarget_rest (W H F x0 : Nat) (hx0 : x0 < W) (hFH : F < H) :
    moveTarget (sandGrid W H F x0 F) x0 F = none := by
  have hs : (sandGrid W H F x0 F).get x0 F = Particle.Sand := by
    rw [sandGrid_get W H F x0 F x0 F hx0 hx0 hFH, if_neg (by omega), if_pos ⟨rfl, rfl⟩]
  by_cases hF0 : F = 0
  · subst hF0
    simp [moveTarget, hs]
  · have hb1 : (sandGrid W H F x0 F).get x0 (F - 1) = Particle.Bedrock := by
      rw [sandGrid_get W H F x0 F x0 (F - 1) hx0 hx0 (by omega), if_pos (by omega)]
    have hbl : (sandGrid W H F x0 F).get (x0 - 1) (F - 1) = Particle.Bedrock := by
      rw [sandGrid_get W H F x0 F (x0 - 1) (F - 1) hx0 (by omega) (by omega),
        if_pos (by omega)]
    have hc3 : ¬ (0 < F ∧ x0 + 1 < (sandGrid W H F x0 F).width
        ∧ (sandGrid W H F x0 F).get (x0 + 1) (F - 1) = Particle.Air) := by
      rintro ⟨h1, hxw, hair⟩
      rw [sandGrid_width] at hxw
      rw [sandGrid_get W H F x0 F (x0 + 1) (F - 1) hx0 hxw (by omega),
        if_pos (by omega)] at hair
      exact Particle.noConfusion hair
    simp only [moveTarget, hs]
    rw [if_neg (by simp [hb1]), if_neg (by simp [hbl]), if_neg hc3]

/-- A list-extensionality principle phrased through `getD`. -/
theorem list_ext_getD {α : Type} (l1 l2 : List α) (d : α) (hl : l1.length = l2.length)
    (h : ∀ i, i < l1.length → l1.getD i d = l2.getD i d) : l1 = l2 := by
  induction l1 generalizing l2 with
  | nil =>
    cases l2 with
    | nil => rfl
    | cons b t2 => simp at hl
  | cons a t1 ih =>
    cases l2 with
    | nil => simp at hl
    | cons b t2 =>
      have h0 := h 0 (by simp)
      simp only [List.getD_cons_zero] at h0
      subst h0
      have := ih t2 (by simpa using hl) ?_
      · rw [this]
      intro i hi
      have := h (i + 1) (by simpa using hi)
      simpa using this

/-- Value of `List.range n` mapped through `f` at an in-range index. -/
theorem getD_map_range {α : Type} (n i : Nat) (f : Nat → α) (d : α) (hi : i < n) :
    ((List.range n).map f).getD i d = f i := by
  rw [List.getD_eq_getElem?_getD, List.getElem?_map, List.getElem?_range hi]
  rfl

/-- Grids with equal components are equal. -/
theorem grid_eq_of (g1 g2 : Grid) (hw : g1.width = g2.width)
    (hh : g1.height = g2.height) (hc : g1.cells = g2.cells) : g1 = g2 := by
  cases g1
  cases g2
  simp_all

/-- The one swap a falling tick performs turns the scenario grid at
height `y0` into the scenario grid at height `y0 - 1`. -/
theorem swap_sandGrid (W H F x0 y0 : Nat) (hx0 : x0 < W) (hF : F < y0) (hy : y0 < H) :
    (sandGrid W H F x0 y0).swapCells (x0, y0) (x0, y0 - 1) = sandGrid W H F x0 (y0 - 1) := by
  have ha : (sandGrid W H F x0 y0).get x0 y0 = Particle.Sand := by
    rw [sandGrid_get W H F x0 y0 x0 y0 hx0 hx0 hy, if_neg (by omega), if_pos ⟨rfl, rfl⟩]
  have hb : (sandGrid W H F x0 y0).get x0 (y0 - 1) = Particle.Air := by
    rw [sandGrid_get W H F x0 y0 x0 (y0 - 1) hx0 hx0 (by omega), if_neg (by omega),
      if_neg (fun hc => by omega)]
  have e0 : y0 - 1 + 1 = y0 := by omega
  have e1 : y0 * W = (y0 - 1) * W + W := by
    have e : (y0 - 1 + 1) * W = (y0 - 1) * W + W := by ring
    rw [← e, e0]
  have e2 : F * W ≤ (y0 - 1) * W := Nat.mul_le_mul_right W (show F ≤ y0 - 1 by omega)
  have e3 : y0 * W + x0 < W * H := rowMajor_lt W H x0 y0 hx0 hy
  have hcells : (((sandGrid W H F x0 y0).cells.set (y0 * W + x0) Particle.Air).set
        ((y0 - 1) * W + x0) Particle.Sand)
      = (sandGrid W H F x0 (y0 - 1)).cells := by
    apply list_ext_getD _ _ Particle.Air
    · simp [sandGrid, List.length_set]
    · intro i hi
      have hi2 : i < W * H := by
        simpa [sandGrid, List.length_set] using hi
      rw [list_getD_set, list_getD_set]
      show _ = ((List.range (W * H)).map fun j =>
        if j < F * W then Particle.Bedrock
        else if j = (y0 - 1) * W + x0 then Particle.Sand
        else Particle.Air).getD i Particle.Air
      rw [getD_map_range (W * H) i _ Particle.Air hi2]
      show (if (y0 - 1) * W + x0 = i
            ∧ i < ((sandGrid W H F x0 y0).cells.set (y0 * W + x0) Particle.Air).length
          then Particle.Sand
          else if (y0 * W + x0 = i) ∧ i < (sandGrid W H F x0 y0).cells.length
            then Particle.Air
            else ((List.range (W * H)).map fun j =>
              if j < F * W then Particle.Bedrock
              else if j = y0 * W + x0 then Particle.Sand
              else Particle.Air).getD i Particle.Air) = _
      have hlen1 : ((sandGrid W H F x0 y0).cells.set (y0 * W + x0) Particle.Air).length
          = W * H := by
        simp [sandGrid, List.length_set]
      have hlen2 : (sandGrid W H F x0 y0).cells.length = W * H := by
        simp [sandGrid]
      rw [hlen1, hlen2]
      by_cases hT : (y0 - 1) * W + x0 = i
      · rw [if_pos ⟨hT, hi2⟩, if_neg (by omega), if_pos (by omega)]
      · rw [if_neg (fun hc => hT hc.1)]
        by_cases hS : y0 * W + x0 = i
        · rw [if_pos ⟨hS, hi2⟩, if_neg (by omega), if_neg (by omega)]
        · rw [if_neg (fun hc => hS hc.1)]
          rw [getD_map_range (W * H) i _ Particle.Air hi2]
          by_cases hiF : i < F * W
          · rw [if_pos hiF, if_pos hiF]
          · rw [if_neg hiF, if_neg hiF, if_neg (by omega), if_neg (by omega)]
  have hwidth : ((sandGrid W H F x0 y0).swapCells (x0, y0) (x0, y0 - 1)).cells
      = (((sandGrid W H F x0 y0).cells.set (y0 * W + x0) Particle.Air).set
          ((y0 - 1) * W + x0) Particle.Sand) := by
    simp only [Grid.swapCells, Grid.set]
    rw [ha, hb]
    simp only [sandGrid_width]
  exact grid_eq_of _ _ rfl rfl (hwidth.trans hcells)

/-- One tick of the single-sand scenario: the sand falls one row while
above the floor and rests once on it; no other cell acts. -/
theorem step_sandGrid (W H F x0 y0 : Nat) (hx0 : x0 < W) (hF : F ≤ y0) (hy : y0 < H) :
    step (sandGrid W H F x0 y0) = sandGrid W H F x0 (max F (y0 - 1)) := by
  by_cases hFy : F < y0
  · rw [max_eq_right (show F ≤ y0 - 1 by omega)]
    unfold step
    rw [sandGrid_width, sandGrid_height]
    have hother : ∀ p ∈ positions W H, p ≠ (x0, y0) →
        ∀ st, applyRule (sandGrid W H F x0 y0) st p = st := by
      intro p hp hne st
      obtain ⟨hpx, hpy⟩ := (mem_positions W H p).mp hp
      rcases p with ⟨px, py⟩
      apply applyRule_none
      apply moveTarget_none_of_still
      have hg := sandGrid_get W H F x0 y0 px py hx0 hpx hpy
      by_cases hpf : py < F
      · rw [hg, if_pos hpf]
        exact Or.inr rfl
      · rw [hg, if_neg hpf, if_neg (fun hc => hne (by rw [hc.1, hc.2]))]
        exact Or.inl rfl
    rw [foldl_eq_of_fixed (applyRule (sandGrid W H F x0 y0)) (positions W H) (x0, y0)
      ((sandGrid W H F x0 y0), []) ((mem_positions W H (x0, y0)).mpr ⟨hx0, hy⟩)
      hother (applyRule_idem _ _ _)]
    rw [show applyRule (sandGrid W H F x0 y0) ((sandGrid W H F x0 y0), []) (x0, y0)
        = ((sandGrid W H F x0 y0).swapCells (x0, y0) (x0, y0 - 1), [(x0, y0 - 1)]) from by
      simp [applyRule, sandGrid_moveTarget_fall W H F x0 y0 hx0 hy hFy]]
    exact swap_sandGrid W H F x0 y0 hx0 hFy hy
  · have he : F = y0 := by omega
    subst he
    rw [max_eq_left (show F - 1 ≤ F by omega)]
    unfold step
    rw [sandGrid_width, sandGrid_height]
    have hall : ∀ p ∈ positions W H,
        applyRule (sandGrid W H F x0 F) ((sandGrid W H F x0 F), []) p
          = ((sandGrid W H F x0 F), []) := by
      intro p hp
      obtain ⟨hpx, hpy⟩ := (mem_positions W H p).mp hp
      rcases p with ⟨px, py⟩
      by_cases hp0 : (px, py) = (x0, F)
      · rw [Prod.mk.injEq] at hp0
        rw [hp0.1, hp0.2]
        exact applyRule_none _ _ _ (sandGrid_moveTarget_rest W H F x0 hx0 hy)
      · apply applyRule_none
        apply moveTarget_none_of_still
        have hg := sandGrid_get W H F x0 F px py hx0 hpx hpy
        by_cases hpf : py < F
        · rw [hg, if_pos hpf]
          exact Or.inr rfl
        · rw [hg, if_neg hpf, if_neg (fun hc => hp0 (by rw [hc.1, hc.2]))]
          exact Or.inl rfl
    rw [foldl_fix (applyRule (sandGrid W H F x0 F)) (positions W H)
      ((sandGrid W H F x0 F), []) hall]

/-- Claim C1 (amended): in a grid whose only contents are a Bedrock
floor on rows `y < F` and a single Sand cell at `(x0, y0)` above an
empty column of Air, the sand falls exactly one row per tick until it
sits directly above the floor at row `F` (or on the bottom row when
`F = 0`), never moves again afterwards, and in particular rests at row
`F` after `H - F` ticks. -/
theorem single_sand_falls (W H F x0 y0 : Nat) (hx0 : x0 < W) (hF : F ≤ y0) (hy : y0 < H) :
    (∀ t, stepT t (sandGrid W H F x0 y0) = sandGrid W H F x0 (max F (y0 - t)))
      ∧ stepT (H - F) (sandGrid W H F x0 y0) = sandGrid W H F x0 F := by
  have main : ∀ t y, F ≤ y → y < H →
      stepT t (sandGrid W H F x0 y) = sandGrid W H F x0 (max F (y - t)) := by
    intro t
    induction t with
    | zero =>
      intro y h1 h2
      show sandGrid W H F x0 y = _
      rw [Nat.sub_zero, max_eq_right h1]
    | succ n ih =>
      intro y h1 h2
      show stepT n (step (sandGrid W H F x0 y)) = _
      rw [step_sandGrid W H F x0 y hx0 h1 h2]
      rw [ih (max F (y - 1)) (le_max_left F (y - 1))
        (Nat.lt_of_le_of_lt (Nat.max_le.mpr ⟨h1, by omega⟩) h2)]
      congr 1
      by_cases hyF : F < y
      · rw [max_eq_right (show F ≤ y - 1 by omega)]
        congr 1
        omega
      · have he : F = y := by omega
        subst he
        rw [max_eq_left (show F - 1 ≤ F by omega)]
        rw [max_eq_left (show F - n ≤ F by omega),
          max_eq_left (show F - (n + 1) ≤ F by omega)]
  refine ⟨fun t => main t y0 hF hy, ?_⟩
  rw [main (H - F) y0 hF hy, max_eq_left (show y0 - (H - F) ≤ F by omega)]

/-- Claim C1 counterexample: in `grid0` the Sand cell at `(1, 1)` has an
empty column of Air directly below it (cell `(1, 0)` is Air), yet one
tick does not move it down one row: the Sand cell at `(0, 1)`, blocked by
Bedrock below, claims `(1, 0)` as its diagonal-down-right target first
(it is earlier in the scan), so the sand at `(1, 1)` loses the
first-writer race and stays in place for this tick. -/
theorem sand_with_air_below_can_stall :
    grid0.get 1 1 = Particle.Sand
      ∧ grid0.get 1 0 = Particle.Air
      ∧ (step grid0).get 1 1 = Particle.Sand := by
  decide

/-- Witness for C1: on a 3-by-3 grid with a one-row floor, sand dropped
at `(1, 2)` rests at `(1, 1)` after `H - F = 2` ticks. -/
theorem single_sand_falls_witness :
    stepT (3 - 1) (sandGrid 3 3 1 1 2) = sandGrid 3 3 1 1 1 :=
  (single_sand_falls 3 3 1 1 2 (by decide) (by decide) (by decide)).2
